import Mathlib

/-!
Verification development for the numeric core of
`fiberphotometry_full_analysis_no_zero.py` (long-term fiber-photometry
batch analysis).

Embedding conventions:
* pandas/NumPy series are embedded as Lean lists, vectorised operations
  as `List.map` / `List.zipWith`, boolean masks as `List Bool`, and
  mask selection `ys[mask]` as `maskSel`;
* exact real arithmetic is embedded as `ℚ`;
* the IEEE-754 special values that several functions of the script can
  produce (NaN from a mean of an empty selection or a 0/0 division,
  signed infinities from a finite/0 division) are embedded by the
  carrier `FP` below: exact rational arithmetic extended with the IEEE
  special-value propagation rules.  Rounding of finite values and the
  sign of zero are not modelled, which is exact for every computation
  appearing in the theorems of this file.
-/

set_option maxRecDepth 8192

/-- IEEE-style floating value: a finite rational `fin q`, a signed
infinity (`inf false` is `+∞`, `inf true` is `-∞`), or `nan`. -/
inductive FP where
  | fin : ℚ → FP
  | inf : Bool → FP
  | nan : FP
deriving DecidableEq

namespace FP

/-- IEEE negation. -/
def neg : FP → FP
  | fin a => fin (-a)
  | inf s => inf (!s)
  | nan => nan

/-- IEEE addition (NaN propagates; `∞ + (-∞) = NaN`). -/
def add : FP → FP → FP
  | nan, _ => nan
  | _, nan => nan
  | fin a, fin b => fin (a + b)
  | fin _, inf s => inf s
  | inf s, fin _ => inf s
  | inf s, inf t => if s = t then inf s else nan

/-- IEEE subtraction. -/
def sub (a b : FP) : FP := add a (neg b)

/-- IEEE multiplication (`0 * ∞ = NaN`). -/
def mul : FP → FP → FP
  | nan, _ => nan
  | _, nan => nan
  | fin a, fin b => fin (a * b)
  | fin a, inf s => if a = 0 then nan else inf (xor (decide (a < 0)) s)
  | inf s, fin a => if a = 0 then nan else inf (xor s (decide (a < 0)))
  | inf s, inf t => inf (xor s t)

/-- IEEE division: `0/0 = NaN`, `x/0 = ±∞` for finite `x ≠ 0`,
`x/∞ = 0` for finite `x`, `∞/∞ = NaN`. -/
def div : FP → FP → FP
  | nan, _ => nan
  | _, nan => nan
  | fin a, fin b =>
      if b = 0 then (if a = 0 then nan else inf (decide (a < 0))) else fin (a / b)
  | fin _, inf _ => fin 0
  | inf s, fin b => inf (xor s (decide (b < 0)))
  | inf _, inf _ => nan

/-- Sum of a series, as NumPy/pandas computes it (empty sum is 0). -/
def sum (l : List FP) : FP := l.foldr add (fin 0)

/-- Mean of a pandas Series: sum divided by length; the mean of an
empty selection is `0/0 = NaN`, exactly as in pandas. -/
def mean (l : List FP) : FP := div (sum l) (fin (l.length : ℚ))

/-- Sample variance with the pandas default `ddof = 1` (divisor
`n - 1`), as used by `Series.std()`.  A single-element series gives
`0/0 = NaN`; pandas also reports NaN for an empty series. -/
def var (l : List FP) : FP :=
  if l.length = 0 then nan
  else
    div (sum (l.map (fun x => mul (sub x (mean l)) (sub x (mean l)))))
      (fin ((l.length : ℚ) - 1))

/-- Exact square root on the radicands arising in this development
(squares of rationals, in particular 0); on a non-square rational the
float result would be rounded, which no theorem below relies on. -/
def ratSqrt (q : ℚ) : ℚ := (Nat.sqrt q.num.toNat : ℚ) / (Nat.sqrt q.den : ℚ)

/-- IEEE square root: `sqrt NaN = NaN`, `sqrt x = NaN` for `x < 0`,
`sqrt (+∞) = +∞`. -/
def sqrt : FP → FP
  | nan => nan
  | fin a => if a < 0 then nan else fin (ratSqrt a)
  | inf s => if s then nan else inf false

/-- `Series.std()` with the pandas default `ddof = 1`. -/
def std (l : List FP) : FP := sqrt (var l)

end FP

/-- Boolean-mask selection `ys[mask]`, the pandas indexing used by
`correct_photobleaching` and `transform_to_zscore`. -/
def maskSel {α : Type} (mask : List Bool) (ys : List α) : List α :=
  ((mask.zip ys).filter (fun p => p.1)).map (fun p => p.2)

/-- The inclusive-both-ends time mask `(ts >= iv[0]) & (ts <= iv[1])`
used for baseline and drift intervals. -/
def inclMask (ts : List ℚ) (iv : ℚ × ℚ) : List Bool :=
  ts.map (fun t => decide (iv.1 ≤ t) && decide (t ≤ iv.2))

/-- Mean of a list of rationals (exact-arithmetic variant). -/
def qmean (l : List ℚ) : ℚ := l.sum / (l.length : ℚ)

/-- `correct_photobleaching(ts, ys, pre_interval, post_interval)` from
the script, over the IEEE-style carrier `FP`: inclusive masks select
the two windows, `slope = (post_mean - pre_mean) / (post[1] - pre[0])`,
`intercept = pre_mean - slope * pre[0]`, and the fitted line is
subtracted from every sample. -/
def correct_photobleaching (ts : List ℚ) (ys : List FP)
    (pre_interval post_interval : ℚ × ℚ) : List FP :=
  let pre_mean := FP.mean (maskSel (inclMask ts pre_interval) ys)
  let post_mean := FP.mean (maskSel (inclMask ts post_interval) ys)
  let slope := FP.div (FP.sub post_mean pre_mean)
    (FP.fin (post_interval.2 - pre_interval.1))
  let intercept := FP.sub pre_mean (FP.mul slope (FP.fin pre_interval.1))
  List.zipWith (fun t y => FP.sub y (FP.add (FP.mul slope (FP.fin t)) intercept))
    ts ys

/-- The same `correct_photobleaching`, over exact rationals.  Used for
the exact-recovery property, whose hypotheses keep every intermediate
quantity finite, so no IEEE special value can arise. -/
def correct_photobleachingQ (ts ys : List ℚ)
    (pre_interval post_interval : ℚ × ℚ) : List ℚ :=
  let pre_mean := qmean (maskSel (inclMask ts pre_interval) ys)
  let post_mean := qmean (maskSel (inclMask ts post_interval) ys)
  let slope := (post_mean - pre_mean) / (post_interval.2 - pre_interval.1)
  let intercept := pre_mean - slope * pre_interval.1
  List.zipWith (fun t y => y - (slope * t + intercept)) ts ys

/-- Sample mean of the column `x`. -/
def sxxOf (x : List ℚ) : ℚ := (x.map (fun v => (v - qmean x) ^ 2)).sum

/-- Centred cross-moment of the regression `x -> y`. -/
def sxyOf (x y : List ℚ) : ℚ :=
  (List.zipWith (fun a b => (a - qmean x) * (b - qmean y)) x y).sum

/-- Fitted values `A @ coeffs` of `np.linalg.lstsq` on the design
matrix `A = [x, 1]` (the script's `correct_motion`).  `lstsq` returns a
least-squares solution in every case, so the fitted values are the
orthogonal projection of `y` onto the column span of `A`: the OLS line
`slope*x + intercept` with `slope = Sxy/Sxx` when the reference is not
constant, and the constant `mean y` (the projection onto `span {1}`,
reached through the minimum-norm coefficients) when it is. -/
def olsFitted (x y : List ℚ) : List ℚ :=
  if sxxOf x = 0 then x.map (fun _ => qmean y)
  else
    x.map (fun v =>
      (sxyOf x y / sxxOf x) * v + (qmean y - (sxyOf x y / sxxOf x) * qmean x))

/-- `correct_motion(fluo465, fluo405)` from the script: regress the 405
channel onto the 465 channel with an intercept, and return the pair
`(fluo405, fluo465 - (fitted - mean(fitted)))`. -/
def correct_motion (fluo465 fluo405 : List ℚ) : List ℚ × List ℚ :=
  let fitted := olsFitted fluo405 fluo465
  let m := qmean fitted
  (fluo405, List.zipWith (fun s f => s - (f - m)) fluo465 fitted)

/-- `transform_to_zscore(ts, ys, baseline_interval)` from the script:
inclusive baseline mask, pandas mean and `std()` (`ddof = 1`) of the
selection, then `(ys - baseline_mean) / baseline_std` elementwise. -/
def transform_to_zscore (ts : List ℚ) (ys : List FP)
    (baseline_interval : ℚ × ℚ) : List FP :=
  let base := maskSel (inclMask ts baseline_interval) ys
  let baseline_mean := FP.mean base
  let baseline_std := FP.std base
  ys.map (fun y => FP.div (FP.sub y baseline_mean) baseline_std)

/-- `np.argmax`: index of the first occurrence of the maximum. -/
def argmax : List ℚ → ℕ
  | [] => 0
  | [_] => 0
  | x :: y :: xs =>
    let j := argmax (y :: xs)
    if (y :: xs).getD j 0 > x then j + 1 else 0

/-- `compute_peak(ys)` from the script: `(ys[argmax ys], argmax ys)`. -/
def compute_peak (ys : List ℚ) : ℚ × ℕ :=
  let idx := argmax ys
  (ys.getD idx 0, idx)

/-- The per-window metric row selection of `main` (lines 261-269):
clip the named window to `[plot_start, min(plot_end_cap, max_time)]`
with `win_start = max(plot_start, start_t)`, `win_end = min(end_t,
plot_end_time)`; skip (`none`) when `win_start >= win_end`; select rows
by the half-open predicate `time >= win_start AND time < win_end`; skip
when the selection is empty. -/
def metricWindowRows {α : Type} (plot_start plot_end_cap max_time : ℚ)
    (w : ℚ × ℚ) (rows : List (ℚ × α)) : Option (List (ℚ × α)) :=
  let plot_end_time := min plot_end_cap max_time
  let win_start := max plot_start w.1
  let win_end := min w.2 plot_end_time
  if win_end ≤ win_start then none
  else
    let sel := rows.filter (fun p => decide (win_start ≤ p.1) && decide (p.1 < win_end))
    if sel.isEmpty then none else some sel

/-- `df["time"].max()` for a non-empty frame. -/
def qmax : List ℚ → ℚ
  | [] => 0
  | [x] => x
  | x :: y :: xs => max x (qmax (y :: xs))

/-- Minimum of a non-empty list, `min(all_plot_end_times)`. -/
def qmin : List ℚ → ℚ
  | [] => 0
  | [x] => x
  | x :: y :: xs => min x (qmin (y :: xs))

/-- `numpy`/pandas `Series.round()`: round half to even. -/
def roundHalfEven (q : ℚ) : ℤ :=
  let f := ⌊q⌋
  let r := q - (f : ℚ)
  if r < 1 / 2 then f
  else if 1 / 2 < r then f + 1
  else if f % 2 = 0 then f else f + 1

/-- Time stamps of one subject's trace. -/
def subjTimes (s : List (ℚ × ℚ)) : List ℚ := s.map Prod.fst

/-- Per-subject effective plot end `min(plot_end_cap, max_time_animal)`
(line 330 of the script). -/
def effEnd (cap : ℚ) (s : List (ℚ × ℚ)) : ℚ := min cap (qmax (subjTimes s))

/-- Cohort-wide effective end `min(all_plot_end_times)` (line 344). -/
def cohortEnd (cap : ℚ) (subs : List (List (ℚ × ℚ))) : ℚ :=
  qmin (subs.map (effEnd cap))

/-- The raw time axis of the outer merge of all subjects on `"time"`
(lines 335-338): the union of every subject's time stamps. -/
def allTimes (subs : List (List (ℚ × ℚ))) : List ℚ :=
  ((subs.map subjTimes).flatten).dedup

/-- The merged axis after the range restriction
`plot_start <= time <= global_plot_end_time` (line 345). -/
def axisTimes (ps cap : ℚ) (subs : List (List (ℚ × ℚ))) : List ℚ :=
  (allTimes subs).filter
    (fun t => decide (ps ≤ t) && decide (t ≤ cohortEnd cap subs))

/-- The rows of the merged frame falling into one integer second after
`round()` (lines 348-349). -/
def groupTimes (ps cap : ℚ) (subs : List (List (ℚ × ℚ))) (sec : ℤ) : List ℚ :=
  (axisTimes ps cap subs).filter (fun t => decide (roundHalfEven t = sec))

/-- One subject's column entry of the outer-merged frame at a raw time:
its value there when the subject has a sample, absent (NaN) otherwise. -/
def colVal (s : List (ℚ × ℚ)) (t : ℚ) : Option ℚ :=
  (s.find? (fun p => decide (p.1 = t))).map Prod.snd

/-- One cell of the aggregated frame `groupby("time").mean()` for one
subject and one integer second: pandas `mean` skips the absent (NaN)
entries, and the cell is itself absent when the subject has no sample
in that second. -/
def aggCell (ps cap : ℚ) (subs : List (List (ℚ × ℚ)))
    (s : List (ℚ × ℚ)) (sec : ℤ) : Option ℚ :=
  let vs := (groupTimes ps cap subs sec).filterMap (colVal s)
  if vs = [] then none else some (vs.sum / (vs.length : ℚ))

/-- The per-window standard deviation of metric extraction,
`std_z = w["fluo465-zsc"].std()` at line 272 of `main`: the pandas
`Series.std()` (default `ddof = 1`, divisor `n-1`) of the z-score
column of the selected window rows `(time, z-score)`. -/
def windowStd (rows : List (ℚ × FP)) : FP := FP.std (rows.map Prod.snd)

/-! ### Helper lemmas -/

theorem decideAnd (p q : Prop) [Decidable p] [Decidable q] :
    decide (p ∧ q) = (decide p && decide q) := by
  by_cases hp : p <;> by_cases hq : q <;> simp [hp, hq]

theorem FP.nan_add (a : FP) : FP.add FP.nan a = FP.nan := by cases a <;> rfl

theorem FP.add_nan (a : FP) : FP.add a FP.nan = FP.nan := by cases a <;> rfl

theorem FP.nan_sub (a : FP) : FP.sub FP.nan a = FP.nan := by cases a <;> rfl

theorem FP.sub_nan (a : FP) : FP.sub a FP.nan = FP.nan := by cases a <;> rfl

theorem FP.nan_mul (a : FP) : FP.mul FP.nan a = FP.nan := by cases a <;> rfl

theorem FP.mul_nan (a : FP) : FP.mul a FP.nan = FP.nan := by cases a <;> rfl

theorem FP.nan_div (a : FP) : FP.div FP.nan a = FP.nan := by cases a <;> rfl

theorem FP.div_nan (a : FP) : FP.div a FP.nan = FP.nan := by cases a <;> rfl

theorem FP.mean_nil : FP.mean [] = FP.nan := by
  simp [FP.mean, FP.sum, FP.div]

/-- Boolean-mask selection with the inclusive time mask is the filter
of the zipped rows by the inclusive predicate. -/
theorem maskSel_inclMask_eq {α : Type} (iv : ℚ × ℚ) (ts : List ℚ) (ys : List α) :
    maskSel (inclMask ts iv) ys
      = ((ts.zip ys).filter
          (fun p => decide (iv.1 ≤ p.1) && decide (p.1 ≤ iv.2))).map Prod.snd := by
  induction ts generalizing ys with
  | nil => simp [maskSel, inclMask]
  | cons t ts ih =>
    cases ys with
    | nil => simp [maskSel, inclMask]
    | cons y ys =>
      cases hb : (decide (iv.1 ≤ t) && decide (t ≤ iv.2)) with
      | true =>
        simpa [maskSel, inclMask, List.filter_cons, hb] using ih ys
      | false =>
        simpa [maskSel, inclMask, List.filter_cons, hb] using ih ys

/-- Variant of `maskSel_inclMask_eq` for a series derived sample-wise
from the time axis: the mask commutes with the `zipWith`. -/
theorem maskSel_inclMask_zipWith {β : Type} (f : ℚ → ℚ → β) (iv : ℚ × ℚ) :
    ∀ (ts os : List ℚ),
      maskSel (inclMask ts iv) (List.zipWith f ts os)
        = (((ts.zip os).filter
            (fun p => decide (iv.1 ≤ p.1) && decide (p.1 ≤ iv.2))).map
              (fun p => f p.1 p.2))
  | [], os => by simp [maskSel, inclMask]
  | t :: ts, [] => by simp [maskSel, inclMask]
  | t :: ts, o :: os => by
    cases hb : (decide (iv.1 ≤ t) && decide (t ≤ iv.2)) with
    | true =>
      simpa [maskSel, inclMask, List.filter_cons, hb]
        using maskSel_inclMask_zipWith f iv ts os
    | false =>
      simpa [maskSel, inclMask, List.filter_cons, hb]
        using maskSel_inclMask_zipWith f iv ts os

/-- Every entry of a `zipWith` whose function is constantly NaN is NaN. -/
theorem mem_zipWith_eq_nan {f : ℚ → FP → FP} (hf : ∀ t y, f t y = FP.nan) :
    ∀ (ts : List ℚ) (ys : List FP) (z : FP), z ∈ List.zipWith f ts ys → z = FP.nan
  | [], _, z, h => by simp at h
  | _ :: _, [], z, h => by simp at h
  | t :: ts, y :: ys, z, h => by
    rw [List.zipWith_cons_cons] at h
    rcases List.mem_cons.mp h with h | h
    · rw [h, hf]
    · exact mem_zipWith_eq_nan hf ts ys z h

/-! ### Claim C10 -/

/-- Claim C10: `correct_motion` returns its second argument (the
reference/405 channel) unchanged as the first component of its result,
so the `fluo405-maf` column of `main` is sample-for-sample the
drift-corrected 405 input: the reference channel itself is never
motion-corrected. -/
theorem correct_motion_returns_reference (fluo465 fluo405 : List ℚ) :
    (correct_motion fluo465 fluo405).1 = fluo405 := rfl

/-! ### Claim C2 -/

/-- Claim C2: anchored two-interval drift correction selects the pre
and post samples inclusively on both ends, takes `pre_mean` and
`post_mean` over those selections, and returns exactly
`ys - (slope*t + intercept)` at each sample with
`slope = (post_mean - pre_mean) / (post.end - pre.start)` and
`intercept = pre_mean - slope * pre.start`. -/
theorem correct_photobleaching_formula (ts : List ℚ) (ys : List FP)
    (pre_interval post_interval : ℚ × ℚ) :
    correct_photobleaching ts ys pre_interval post_interval =
      (let pre_mean := FP.mean (((ts.zip ys).filter
          (fun p => decide (pre_interval.1 ≤ p.1 ∧ p.1 ≤ pre_interval.2))).map Prod.snd)
       let post_mean := FP.mean (((ts.zip ys).filter
          (fun p => decide (post_interval.1 ≤ p.1 ∧ p.1 ≤ post_interval.2))).map Prod.snd)
       let slope := FP.div (FP.sub post_mean pre_mean)
         (FP.fin (post_interval.2 - pre_interval.1))
       let intercept := FP.sub pre_mean (FP.mul slope (FP.fin pre_interval.1))
       List.zipWith (fun t y => FP.sub y (FP.add (FP.mul slope (FP.fin t)) intercept))
         ts ys) := by
  simp only [correct_photobleaching, maskSel_inclMask_eq, decideAnd]

/-! ### Claim C8 -/

/-- Claim C8: when either drift interval selects zero samples, the
interval mean is the NaN sentinel and every sample of the corrected
channel is NaN — the whole channel is undefined, not defaulted to a
number.  (The embedding is a total function, matching the script:
computing the all-NaN channel raises nothing, so the loop over fields
and subjects continues.) -/
theorem correct_photobleaching_empty_interval_nan (ts : List ℚ) (ys : List FP)
    (pre_interval post_interval : ℚ × ℚ)
    (h : maskSel (inclMask ts pre_interval) ys = []
       ∨ maskSel (inclMask ts post_interval) ys = []) :
    ∀ z ∈ correct_photobleaching ts ys pre_interval post_interval, z = FP.nan := by
  intro z hz
  simp only [correct_photobleaching] at hz
  rcases h with h | h
  · rw [h] at hz
    refine mem_zipWith_eq_nan (fun t y => ?_) ts ys z hz
    simp [FP.mean_nil, FP.nan_sub, FP.sub_nan, FP.nan_div, FP.div_nan,
      FP.nan_mul, FP.mul_nan, FP.nan_add, FP.add_nan]
  · rw [h] at hz
    refine mem_zipWith_eq_nan (fun t y => ?_) ts ys z hz
    simp [FP.mean_nil, FP.nan_sub, FP.sub_nan, FP.nan_div, FP.div_nan,
      FP.nan_mul, FP.mul_nan, FP.nan_add, FP.add_nan]

/-- Witness for C8 at a concrete trace whose pre interval selects no
samples: the whole corrected channel evaluates to NaN. -/
theorem correct_photobleaching_empty_interval_nan_witness :
    (maskSel (inclMask [0, 1] ((5 : ℚ), (6 : ℚ))) [FP.fin 1, FP.fin 2] = []
        ∨ maskSel (inclMask [0, 1] ((0 : ℚ), (1 : ℚ))) [FP.fin 1, FP.fin 2] = [])
      ∧ ∀ z ∈ correct_photobleaching [0, 1] [FP.fin 1, FP.fin 2] (5, 6) (0, 1),
          z = FP.nan :=
  ⟨Or.inl (by decide),
    correct_photobleaching_empty_interval_nan [0, 1] [FP.fin 1, FP.fin 2] (5, 6) (0, 1)
      (Or.inl (by decide))⟩

/-! ### Claim C7 -/

theorem qsum_const (c : ℚ) :
    ∀ (l : List ℚ), (∀ x ∈ l, x = c) → l.sum = l.length * c
  | [], _ => by simp
  | x :: l, h => by
    have hx : x = c := h x (List.mem_cons_self x l)
    have hl := qsum_const c l (fun y hy => h y (List.mem_cons_of_mem x hy))
    simp [hx, hl]
    ring

theorem zipWith_sub_all_eq (m : ℚ) :
    ∀ (sig fit : List ℚ), (∀ f ∈ fit, f = m) → sig.length = fit.length →
      List.zipWith (fun s f => s - (f - m)) sig fit = sig
  | [], [], _, _ => rfl
  | [], _ :: _, _, h => by simp at h
  | _ :: _, [], _, h => by simp at h
  | s :: sig, f :: fit, hf, h => by
    have h1 : f = m := hf f (List.mem_cons_self f fit)
    have h2 := zipWith_sub_all_eq m sig fit
      (fun g hg => hf g (List.mem_cons_of_mem f hg)) (by simpa using h)
    simp [h1, h2]

/-- Counterexample to claim C7 as stated: at the concrete input
`signal = [1, 3]`, `reference = [2, 2]` the reference has zero
variance, yet `correct_motion` reports no failure — `np.linalg.lstsq`
returns the minimum-norm least-squares solution, whose fitted values
are the constant `mean(signal)`, so the call returns the ordinary
numeric pair `([2, 2], [1, 3])` (the signal unchanged) and the subject
is processed like any other. -/
theorem correct_motion_const_ref_cex :
    correct_motion [1, 3] [2, 2] = ([2, 2], [1, 3]) := by
  norm_num [correct_motion, olsFitted, sxxOf, sxyOf, qmean]

/-- Amended claim C7: for every reference channel of zero variance
(all samples equal), `correct_motion` does not report a structured
failure; the degenerate regression resolves to the minimum-norm
least-squares fit, whose fitted values all equal `mean(signal)`, hence
`fitted - mean(fitted) = 0` and the corrected signal is the input
signal unchanged. -/
theorem correct_motion_const_ref (sig ref : List ℚ) (c : ℚ)
    (href : ∀ x ∈ ref, x = c) (hne : ref ≠ [])
    (hlen : sig.length = ref.length) :
    (correct_motion sig ref).2 = sig := by
  have hn : ((ref.length : ℚ)) ≠ 0 := by
    have : ref.length ≠ 0 := by
      intro h0
      exact hne (List.length_eq_zero.mp h0)
    exact_mod_cast this
  have hmean : qmean ref = c := by
    rw [qmean, qsum_const c ref href, mul_comm, mul_div_assoc, div_self hn, mul_one]
  have hsxx : sxxOf ref = 0 := by
    refine List.sum_eq_zero ?_
    intro x hx
    rcases List.mem_map.mp hx with ⟨v, hv, rfl⟩
    rw [href v hv, hmean]
    ring
  have hfit : olsFitted ref sig = ref.map (fun _ => qmean sig) := by
    rw [olsFitted, if_pos hsxx]
  have hfconst : ∀ f ∈ olsFitted ref sig, f = qmean sig := by
    intro f hf
    rw [hfit] at hf
    rcases List.mem_map.mp hf with ⟨v, _, rfl⟩
    rfl
  have hflen : (olsFitted ref sig).length = ref.length := by
    rw [hfit, List.length_map]
  have hfmean : qmean (olsFitted ref sig) = qmean sig := by
    rw [qmean, qsum_const (qmean sig) _ hfconst, hflen, mul_comm, mul_div_assoc,
      div_self hn, mul_one]
  show List.zipWith (fun s f => s - (f - qmean (olsFitted ref sig))) sig (olsFitted ref sig) = sig
  rw [hfmean]
  exact zipWith_sub_all_eq (qmean sig) sig (olsFitted ref sig) hfconst
    (by rw [hflen]; exact hlen)

/-- Witness for the amended claim C7 at `signal = [1, 3]`,
`reference = [2, 2]`. -/
theorem correct_motion_const_ref_witness :
    (∀ x ∈ ([2, 2] : List ℚ), x = 2) ∧ ([2, 2] : List ℚ) ≠ []
      ∧ ([1, 3] : List ℚ).length = ([2, 2] : List ℚ).length
      ∧ (correct_motion [1, 3] [2, 2]).2 = [1, 3] :=
  ⟨by decide, by decide, by decide,
    correct_motion_const_ref [1, 3] [2, 2] 2 (by decide) (by decide) (by decide)⟩

/-! ### Claim C1 -/

theorem FP.sum_const_fin (v : ℚ) :
    ∀ (l : List FP), (∀ x ∈ l, x = FP.fin v) → FP.sum l = FP.fin (l.length * v)
  | [], _ => by simp [FP.sum]
  | x :: l, h => by
    have hx := h x (List.mem_cons_self x l)
    have hl := FP.sum_const_fin v l (fun y hy => h y (List.mem_cons_of_mem x hy))
    have hc : FP.sum (x :: l) = FP.add x (FP.sum l) := rfl
    rw [hc, hx, hl]
    show FP.fin (v + l.length * v) = FP.fin ((x :: l).length * v)
    congr 1
    push_cast [List.length_cons]
    ring

theorem FP.mean_const_fin (v : ℚ) (l : List FP) (h : ∀ x ∈ l, x = FP.fin v)
    (hne : l ≠ []) : FP.mean l = FP.fin v := by
  have hn : ((l.length : ℚ)) ≠ 0 := by
    have : l.length ≠ 0 := fun h0 => hne (List.length_eq_zero.mp h0)
    exact_mod_cast this
  rw [FP.mean, FP.sum_const_fin v l h]
  have hd : FP.div (FP.fin ((l.length : ℚ) * v)) (FP.fin (l.length : ℚ))
      = FP.fin (((l.length : ℚ) * v) / (l.length : ℚ)) := by
    simp [FP.div, hn]
  rw [hd, mul_comm, mul_div_assoc, div_self hn, mul_one]

theorem FP.var_const_fin (v : ℚ) (l : List FP) (h : ∀ x ∈ l, x = FP.fin v)
    (h2 : 2 ≤ l.length) : FP.var l = FP.fin 0 := by
  have hne : l ≠ [] := by
    intro e
    rw [e] at h2
    simp at h2
  have hlen0 : l.length ≠ 0 := by omega
  rw [FP.var, if_neg hlen0]
  have hm := FP.mean_const_fin v l h hne
  have hmap : l.map (fun x => FP.mul (FP.sub x (FP.mean l)) (FP.sub x (FP.mean l)))
      = l.map (fun _ => FP.fin 0) := by
    apply List.map_congr_left
    intro x hx
    rw [h x hx, hm]
    show FP.mul (FP.add (FP.fin v) (FP.neg (FP.fin v))) _ = FP.fin 0
    show FP.fin ((v + -v) * (v + -v)) = FP.fin 0
    congr 1
    ring
  rw [hmap]
  have hz : ∀ x ∈ l.map (fun _ => FP.fin (0 : ℚ)), x = FP.fin (0 : ℚ) := by
    intro x hx
    rcases List.mem_map.mp hx with ⟨_, _, rfl⟩
    rfl
  rw [FP.sum_const_fin 0 _ hz]
  have hd : ((l.length : ℚ) - 1) ≠ 0 := by
    have : (2 : ℚ) ≤ (l.length : ℚ) := by exact_mod_cast h2
    linarith
  simp [FP.div, hd]

theorem FP.ratSqrt_zero : FP.ratSqrt 0 = 0 := by
  norm_num [FP.ratSqrt]

theorem FP.std_const_fin (v : ℚ) (l : List FP) (h : ∀ x ∈ l, x = FP.fin v)
    (h2 : 2 ≤ l.length) : FP.std l = FP.fin 0 := by
  rw [FP.std, FP.var_const_fin v l h h2]
  show FP.sqrt (FP.fin 0) = FP.fin 0
  simp [FP.sqrt, FP.ratSqrt_zero]

/-- Counterexample to claim C1 as stated: for the trace with times
`[0, 1, 2]`, values `[5, 5, 7]` and baseline interval `[0, 1]`, the
baseline window holds two identical samples (std exactly 0), but the
z-score of the third sample is `(7-5)/0 = +∞` — an infinity, not the
claimed not-a-number. -/
theorem transform_to_zscore_identical_baseline_cex :
    transform_to_zscore [0, 1, 2] [FP.fin 5, FP.fin 5, FP.fin 7] (0, 1)
        = [FP.nan, FP.nan, FP.inf false]
      ∧ FP.inf false ≠ FP.nan := by
  constructor
  · norm_num [transform_to_zscore, maskSel, inclMask, FP.mean, FP.std, FP.var, FP.sum,
      FP.sub, FP.add, FP.neg, FP.mul, FP.div, FP.sqrt, FP.ratSqrt]
  · decide

/-- Amended claim C1: z-score normalization is
`(x - mean(baseline)) / std(baseline)` with the baseline selected by
the inclusive time mask, and every standard deviation in the pipeline
— the baseline std in `transform_to_zscore` and the per-window std
`windowStd` of metric extraction (line 272) — uses the sample
(`ddof = 1`, divisor `n-1`) convention: `windowStd` is the square root
of the squared deviations summed and divided by `n - 1`, and an
identical-valued window of `n > 1` samples has std exactly 0.
Consequently, for a baseline window of `n > 1` identical-valued
samples the baseline std is exactly 0, and the resulting z-scores are
not-a-number exactly at samples equal to the baseline mean (0/0, in
particular throughout the baseline window), while every sample
differing from the baseline mean yields a signed infinity, not
not-a-number. -/
theorem transform_to_zscore_identical_baseline (ts : List ℚ) (ys : List FP)
    (b : ℚ × ℚ) (v : ℚ)
    (hid : ∀ x ∈ maskSel (inclMask ts b) ys, x = FP.fin v)
    (h2 : 2 ≤ (maskSel (inclMask ts b) ys).length) :
    FP.std (maskSel (inclMask ts b) ys) = FP.fin 0
      ∧ FP.mean (maskSel (inclMask ts b) ys) = FP.fin v
      ∧ transform_to_zscore ts ys b
          = ys.map (fun y => FP.div (FP.sub y (FP.fin v)) (FP.fin 0))
      ∧ (∀ (rows : List (ℚ × FP)), rows ≠ [] →
          windowStd rows
            = FP.sqrt (FP.div
                (FP.sum ((rows.map Prod.snd).map (fun x =>
                  FP.mul (FP.sub x (FP.mean (rows.map Prod.snd)))
                    (FP.sub x (FP.mean (rows.map Prod.snd))))))
                (FP.fin ((rows.length : ℚ) - 1))))
      ∧ (∀ (u : ℚ) (rows : List (ℚ × FP)),
          (∀ x ∈ rows.map Prod.snd, x = FP.fin u) → 2 ≤ rows.length →
          windowStd rows = FP.fin 0)
      ∧ ∀ w : ℚ, FP.div (FP.sub (FP.fin w) (FP.fin v)) (FP.fin 0)
          = if w = v then FP.nan else FP.inf (decide (w < v)) := by
  have hne : maskSel (inclMask ts b) ys ≠ [] := by
    intro e
    rw [e] at h2
    simp at h2
  have hm := FP.mean_const_fin v _ hid hne
  have hs := FP.std_const_fin v _ hid h2
  refine ⟨hs, hm, ?_, ?_, ?_, ?_⟩
  · simp only [transform_to_zscore, hm, hs]
  · intro rows hrne
    have hlen : rows.length ≠ 0 := fun h0 => hrne (List.length_eq_zero.mp h0)
    simp only [windowStd, FP.std, FP.var, List.length_map]
    rw [if_neg hlen]
  · intro u rows hu hr2
    rw [windowStd]
    exact FP.std_const_fin u _ hu (by simpa using hr2)
  · intro w
    have h1 : FP.sub (FP.fin w) (FP.fin v) = FP.fin (w - v) := by
      show FP.fin (w + -v) = FP.fin (w - v)
      rw [← sub_eq_add_neg]
    rw [h1]
    by_cases hw : w = v
    · subst hw
      simp [FP.div]
    · have hwv : w - v ≠ 0 := sub_ne_zero.mpr hw
      have hdd : FP.div (FP.fin (w - v)) (FP.fin 0) = FP.inf (decide (w - v < 0)) := by
        simp [FP.div, hwv]
      rw [hdd, if_neg hw]
      congr 1
      exact decide_eq_decide.mpr sub_neg

/-- Witness for the amended claim C1 at the concrete trace of the
counterexample: the baseline holds two identical samples. -/
theorem transform_to_zscore_identical_baseline_witness :
    (∀ x ∈ maskSel (inclMask [0, 1, 2] ((0 : ℚ), (1 : ℚ)))
        [FP.fin 5, FP.fin 5, FP.fin 7], x = FP.fin 5)
      ∧ 2 ≤ (maskSel (inclMask [0, 1, 2] ((0 : ℚ), (1 : ℚ)))
          [FP.fin 5, FP.fin 5, FP.fin 7]).length
      ∧ FP.std (maskSel (inclMask [0, 1, 2] ((0 : ℚ), (1 : ℚ)))
          [FP.fin 5, FP.fin 5, FP.fin 7]) = FP.fin 0
      ∧ FP.mean (maskSel (inclMask [0, 1, 2] ((0 : ℚ), (1 : ℚ)))
          [FP.fin 5, FP.fin 5, FP.fin 7]) = FP.fin 5
      ∧ transform_to_zscore [0, 1, 2] [FP.fin 5, FP.fin 5, FP.fin 7] (0, 1)
          = [FP.fin 5, FP.fin 5, FP.fin 7].map
              (fun y => FP.div (FP.sub y (FP.fin 5)) (FP.fin 0))
      ∧ windowStd [((7200 : ℚ), FP.fin 3), ((7300 : ℚ), FP.fin 3)] = FP.fin 0 :=
  ⟨by decide, by decide,
    (transform_to_zscore_identical_baseline [0, 1, 2]
      [FP.fin 5, FP.fin 5, FP.fin 7] (0, 1) 5 (by decide) (by decide)).1,
    (transform_to_zscore_identical_baseline [0, 1, 2]
      [FP.fin 5, FP.fin 5, FP.fin 7] (0, 1) 5 (by decide) (by decide)).2.1,
    (transform_to_zscore_identical_baseline [0, 1, 2]
      [FP.fin 5, FP.fin 5, FP.fin 7] (0, 1) 5 (by decide) (by decide)).2.2.1,
    (transform_to_zscore_identical_baseline [0, 1, 2]
      [FP.fin 5, FP.fin 5, FP.fin 7] (0, 1) 5 (by decide) (by decide)).2.2.2.2.1
      3 [((7200 : ℚ), FP.fin 3), ((7300 : ℚ), FP.fin 3)] (by decide) (by decide)⟩

/-! ### Claim C9 -/

theorem argmax_lt_length : ∀ (ys : List ℚ), ys ≠ [] → argmax ys < ys.length
  | [], h => absurd rfl h
  | [_] , _ => by simp [argmax]
  | x :: y :: xs, _ => by
    have ih := argmax_lt_length (y :: xs) (by simp)
    simp only [argmax]
    split
    · exact Nat.succ_lt_succ ih
    · simp

theorem argmax_getD_le : ∀ (ys : List ℚ) (j : ℕ), j < ys.length →
    ys.getD j 0 ≤ ys.getD (argmax ys) 0
  | [], j, hj => by simp at hj
  | [x], j, hj => by
    have hj0 : j = 0 := by simpa using hj
    subst hj0
    simp [argmax]
  | x :: y :: xs, j, hj => by
    simp only [argmax]
    by_cases h : (y :: xs).getD (argmax (y :: xs)) 0 > x
    · rw [if_pos h]
      cases j with
      | zero => simpa using le_of_lt h
      | succ j =>
        have ih := argmax_getD_le (y :: xs) j (by simpa using hj)
        simpa using ih
    · rw [if_neg h]
      push_neg at h
      cases j with
      | zero => simp
      | succ j =>
        have ih := argmax_getD_le (y :: xs) j (by simpa using hj)
        simpa using ih.trans h

theorem argmax_first_occ : ∀ (ys : List ℚ) (j : ℕ), j < argmax ys →
    ys.getD j 0 < ys.getD (argmax ys) 0
  | [], j, hj => by simp [argmax] at hj
  | [_], j, hj => by simp [argmax] at hj
  | x :: y :: xs, j, hj => by
    simp only [argmax] at hj ⊢
    by_cases h : (y :: xs).getD (argmax (y :: xs)) 0 > x
    · rw [if_pos h] at hj ⊢
      cases j with
      | zero => simpa using h
      | succ j =>
        have ih := argmax_first_occ (y :: xs) j (by omega)
        simpa using ih
    · rw [if_neg h] at hj
      omega

/-- Claim C9: `compute_peak` on a non-empty window returns the maximum
value in the window together with the index of its first occurrence:
the index is in range, the returned value is the value at that index,
no window value exceeds it, and every value strictly before the index
is strictly smaller (ties resolve to the lowest index).  `main` reads
`peak_time` as the time at that index (line 275), so `peak_time` is the
time of the first sample attaining the maximum. -/
theorem compute_peak_first_max (ys : List ℚ) (h : ys ≠ []) :
    (compute_peak ys).2 < ys.length
      ∧ (compute_peak ys).1 = ys.getD (compute_peak ys).2 0
      ∧ (∀ j < ys.length, ys.getD j 0 ≤ (compute_peak ys).1)
      ∧ ∀ j < (compute_peak ys).2, ys.getD j 0 < (compute_peak ys).1 :=
  ⟨argmax_lt_length ys h, rfl,
    fun j hj => argmax_getD_le ys j hj,
    fun j hj => argmax_first_occ ys j hj⟩

/-- Witness for C9 on the spec's two examples: `[0,1,3,2,0]` at times
`[0,1,2,3,4]` peaks with value 3 at index 2 (time 2); the tie
`[0,3,1,3,0]` resolves to index 1 (time 1). -/
theorem compute_peak_first_max_witness :
    ([0, 1, 3, 2, 0] : List ℚ) ≠ []
      ∧ compute_peak [0, 1, 3, 2, 0] = (3, 2)
      ∧ ([0, 1, 2, 3, 4] : List ℚ).getD (compute_peak [0, 1, 3, 2, 0]).2 0 = 2
      ∧ compute_peak [0, 3, 1, 3, 0] = (3, 1)
      ∧ ([0, 1, 2, 3, 4] : List ℚ).getD (compute_peak [0, 3, 1, 3, 0]).2 0 = 1
      ∧ ∀ j < ([0, 1, 3, 2, 0] : List ℚ).length,
          ([0, 1, 3, 2, 0] : List ℚ).getD j 0 ≤ (compute_peak [0, 1, 3, 2, 0]).1 :=
  ⟨by decide, by decide, by decide, by decide, by decide,
    (compute_peak_first_max [0, 1, 3, 2, 0] (by decide)).2.2.1⟩

/-! ### Claim C3 -/

theorem zipWith_corr_sum (m : ℚ) :
    ∀ (sig fit : List ℚ), sig.length = fit.length →
      (List.zipWith (fun s f => s - (f - m)) sig fit).sum
        = sig.sum - fit.sum + sig.length * m
  | [], [], _ => by simp
  | [], _ :: _, h => by simp at h
  | _ :: _, [], h => by simp at h
  | s :: sig, f :: fit, h => by
    have ih := zipWith_corr_sum m sig fit (by simpa using h)
    simp [List.zipWith_cons_cons, ih]
    ring

/-- Claim C3: for equal-length inputs (n >= 2) with non-constant
reference, `correct_motion` computes the ordinary least-squares fit of
the reference onto the signal (slope `Sxy/Sxx`, intercept through the
means) and returns exactly `signal - (fitted - mean(fitted))`; in
particular the mean of the corrected signal equals the mean of the
input signal (the DC level is preserved). -/
theorem correct_motion_spec (sig ref : List ℚ) (h2 : 2 ≤ sig.length)
    (hlen : sig.length = ref.length) (hsxx : sxxOf ref ≠ 0) :
    (correct_motion sig ref).2
        = List.zipWith (fun s f => s - (f - qmean (olsFitted ref sig)))
            sig (olsFitted ref sig)
      ∧ olsFitted ref sig
          = ref.map (fun v => (sxyOf ref sig / sxxOf ref) * v
              + (qmean sig - (sxyOf ref sig / sxxOf ref) * qmean ref))
      ∧ qmean (correct_motion sig ref).2 = qmean sig := by
  have hfl : (olsFitted ref sig).length = ref.length := by
    rw [olsFitted]
    split <;> simp
  have hn : ((sig.length : ℚ)) ≠ 0 := by
    have : sig.length ≠ 0 := by omega
    exact_mod_cast this
  have hlen2 : sig.length = (olsFitted ref sig).length := by
    rw [hfl]
    exact hlen
  refine ⟨rfl, by rw [olsFitted, if_neg hsxx], ?_⟩
  show qmean (List.zipWith (fun s f => s - (f - qmean (olsFitted ref sig)))
      sig (olsFitted ref sig)) = qmean sig
  have hminlen : (List.zipWith (fun s f => s - (f - qmean (olsFitted ref sig)))
      sig (olsFitted ref sig)).length = sig.length := by
    rw [List.length_zipWith, ← hlen2, min_self]
  have key := zipWith_corr_sum (qmean (olsFitted ref sig)) sig (olsFitted ref sig) hlen2
  simp only [qmean] at key hminlen ⊢
  rw [hminlen, key, ← hlen2]
  field_simp

/-- Witness for C3 at `signal = [1, 3]`, `reference = [0, 1]`. -/
theorem correct_motion_spec_witness :
    2 ≤ ([1, 3] : List ℚ).length
      ∧ ([1, 3] : List ℚ).length = ([0, 1] : List ℚ).length
      ∧ sxxOf [0, 1] ≠ 0
      ∧ qmean (correct_motion [1, 3] [0, 1]).2 = qmean [1, 3] :=
  ⟨by decide, by decide, by norm_num [sxxOf, qmean],
    (correct_motion_spec [1, 3] [0, 1] (by decide) (by decide)
      (by norm_num [sxxOf, qmean])).2.2⟩

/-! ### Claim C6 -/

theorem sum_affine (a b : ℚ) :
    ∀ (l : List (ℚ × ℚ)),
      (l.map (fun p => p.2 + (a * p.1 + b))).sum
        = (l.map Prod.snd).sum + a * (l.map Prod.fst).sum + l.length * b
  | [] => by simp
  | p :: l => by
    have ih := sum_affine a b l
    simp [ih]
    ring

theorem zipWith_zipWith_cancel (a b : ℚ) :
    ∀ (ts os : List ℚ), ts.length = os.length →
      List.zipWith (fun t y => y - (a * t + b)) ts
        (List.zipWith (fun t o => o + (a * t + b)) ts os) = os
  | [], [], _ => rfl
  | [], _ :: _, h => by simp at h
  | _ :: _, [], h => by simp at h
  | t :: ts, o :: os, h => by
    have ih := zipWith_zipWith_cancel a b ts os (by simpa using h)
    have he : o + (a * t + b) - (a * t + b) = o := by ring
    simp [List.zipWith_cons_cons, ih, he]

/-- Claim C6: for a synthetic trace obtained by adding the linear
drift `a*t + b` to an original signal, Strategy A drift correction
(`correct_photobleaching`) recovers the original signal exactly when
the `pre`/`post` interval selections exactly bracket the drift: the
original signal averages to zero over each selection, and the selected
sample times average to the interval anchors `pre.start` and
`post.end` that the code's two-point fit uses.  (The code works in
floats, so recovery there is within floating-point tolerance; the
rational embedding makes it exact.) -/
theorem correct_photobleachingQ_recovery
    (ts orig : List ℚ) (a b : ℚ) (pre_interval post_interval : ℚ × ℚ)
    (preS postS : List (ℚ × ℚ))
    (hlen : ts.length = orig.length)
    (hpreS : preS = (ts.zip orig).filter
        (fun p => decide (pre_interval.1 ≤ p.1) && decide (p.1 ≤ pre_interval.2)))
    (hpostS : postS = (ts.zip orig).filter
        (fun p => decide (post_interval.1 ≤ p.1) && decide (p.1 ≤ post_interval.2)))
    (hpre : preS ≠ []) (hpost : postS ≠ [])
    (hpreO : (preS.map Prod.snd).sum = 0)
    (hpreT : (preS.map Prod.fst).sum = (preS.length : ℚ) * pre_interval.1)
    (hpostO : (postS.map Prod.snd).sum = 0)
    (hpostT : (postS.map Prod.fst).sum = (postS.length : ℚ) * post_interval.2)
    (hd : post_interval.2 - pre_interval.1 ≠ 0) :
    correct_photobleachingQ ts
        (List.zipWith (fun t o => o + (a * t + b)) ts orig)
        pre_interval post_interval = orig := by
  have hnpre : ((preS.length : ℚ)) ≠ 0 := by
    have : preS.length ≠ 0 := fun h0 => hpre (List.length_eq_zero.mp h0)
    exact_mod_cast this
  have hnpost : ((postS.length : ℚ)) ≠ 0 := by
    have : postS.length ≠ 0 := fun h0 => hpost (List.length_eq_zero.mp h0)
    exact_mod_cast this
  have hm1 : qmean (maskSel (inclMask ts pre_interval)
      (List.zipWith (fun t o => o + (a * t + b)) ts orig))
        = a * pre_interval.1 + b := by
    simp only [maskSel_inclMask_zipWith, ← hpreS]
    rw [qmean, sum_affine a b preS, hpreO, hpreT, List.length_map]
    field_simp
    ring
  have hm2 : qmean (maskSel (inclMask ts post_interval)
      (List.zipWith (fun t o => o + (a * t + b)) ts orig))
        = a * post_interval.2 + b := by
    simp only [maskSel_inclMask_zipWith, ← hpostS]
    rw [qmean, sum_affine a b postS, hpostO, hpostT, List.length_map]
    field_simp
    ring
  simp only [correct_photobleachingQ]
  rw [hm1, hm2]
  have hs : (a * post_interval.2 + b - (a * pre_interval.1 + b))
      / (post_interval.2 - pre_interval.1) = a := by
    rw [show a * post_interval.2 + b - (a * pre_interval.1 + b)
        = a * (post_interval.2 - pre_interval.1) by ring]
    rw [mul_div_assoc, div_self hd, mul_one]
  rw [hs]
  have hi : a * pre_interval.1 + b - a * pre_interval.1 = b := by ring
  rw [hi]
  exact zipWith_zipWith_cancel a b ts orig hlen

/-- Witness for C6: single-sample brackets at `t = 0` and `t = 3`
where the original signal `[0, 5, 7, 0]` vanishes; the injected drift
is `2t + 1` and the correction returns the original exactly. -/
theorem correct_photobleachingQ_recovery_witness :
    ([0, 1, 2, 3] : List ℚ).length = ([0, 5, 7, 0] : List ℚ).length
      ∧ ([((0 : ℚ), (0 : ℚ))]
          = (([0, 1, 2, 3] : List ℚ).zip ([0, 5, 7, 0] : List ℚ)).filter
              (fun p => decide (((0 : ℚ), (0 : ℚ)).1 ≤ p.1)
                && decide (p.1 ≤ ((0 : ℚ), (0 : ℚ)).2)))
      ∧ ([((3 : ℚ), (0 : ℚ))]
          = (([0, 1, 2, 3] : List ℚ).zip ([0, 5, 7, 0] : List ℚ)).filter
              (fun p => decide (((3 : ℚ), (3 : ℚ)).1 ≤ p.1)
                && decide (p.1 ≤ ((3 : ℚ), (3 : ℚ)).2)))
      ∧ correct_photobleachingQ [0, 1, 2, 3]
          (List.zipWith (fun t o => o + (2 * t + 1)) [0, 1, 2, 3] [0, 5, 7, 0])
          (0, 0) (3, 3) = [0, 5, 7, 0] :=
  ⟨by decide, by decide, by decide,
    correct_photobleachingQ_recovery [0, 1, 2, 3] [0, 5, 7, 0] 2 1 (0, 0) (3, 3)
      [(0, 0)] [(3, 0)] (by decide) (by decide) (by decide) (by decide) (by decide)
      (by norm_num) (by norm_num) (by norm_num) (by norm_num) (by norm_num)⟩

/-! ### Claim C4 -/

/-- Claim C4: a named metric window is clipped to the subject's usable
range through `win_start = max(plot_start, window.start)` and
`win_end = min(window.end, min(plot_end_cap, max_time))`; the window is
skipped (no metrics row) when the clipped start is not strictly below
the clipped end, the samples are selected by the half-open predicate
`win_start <= time AND time < win_end` (in contrast to the
inclusive-both-ends selection `inclMask` used for baseline and drift
intervals), and a window whose selection is empty is likewise
skipped. -/
theorem metricWindowRows_spec {α : Type} (ps cap mt : ℚ) (w : ℚ × ℚ)
    (rows : List (ℚ × α)) :
    (metricWindowRows ps cap mt w rows = none ↔
      (min w.2 (min cap mt) ≤ max ps w.1
        ∨ ∀ p ∈ rows, ¬(max ps w.1 ≤ p.1 ∧ p.1 < min w.2 (min cap mt))))
    ∧ ∀ l, metricWindowRows ps cap mt w rows = some l →
        (max ps w.1 < min w.2 (min cap mt)
          ∧ l = rows.filter (fun p => decide (max ps w.1 ≤ p.1)
              && decide (p.1 < min w.2 (min cap mt)))
          ∧ l ≠ []) := by
  simp only [metricWindowRows]
  by_cases hg : min w.2 (min cap mt) ≤ max ps w.1
  · rw [if_pos hg]
    exact ⟨by simp [hg], fun l hl => by simp at hl⟩
  · rw [if_neg hg]
    push_neg at hg
    by_cases hsel : (rows.filter (fun p => decide (max ps w.1 ≤ p.1)
        && decide (p.1 < min w.2 (min cap mt)))).isEmpty
    · rw [if_pos hsel]
      have hsel' : ∀ p ∈ rows, ¬(max ps w.1 ≤ p.1 ∧ p.1 < min w.2 (min cap mt)) := by
        intro p hp hc
        have hmem : p ∈ rows.filter (fun p => decide (max ps w.1 ≤ p.1)
            && decide (p.1 < min w.2 (min cap mt))) :=
          List.mem_filter.mpr ⟨hp, by simp [hc.1, hc.2]⟩
        rw [List.isEmpty_iff.mp hsel] at hmem
        simp at hmem
      exact ⟨⟨fun _ => Or.inr hsel', fun _ => rfl⟩, fun l hl => by simp at hl⟩
    · rw [if_neg hsel]
      have hne : rows.filter (fun p => decide (max ps w.1 ≤ p.1)
          && decide (p.1 < min w.2 (min cap mt))) ≠ [] := by
        intro e
        rw [e] at hsel
        simp at hsel
      constructor
      · constructor
        · intro h
          simp at h
        · intro h
          rcases h with h | h
          · exact absurd h (not_le.mpr hg)
          · exfalso
            apply hne
            apply List.filter_eq_nil_iff.mpr
            intro p hp
            simp only [Bool.and_eq_true, decide_eq_true_eq]
            exact fun hc => h p hp ⟨hc.1, hc.2⟩
      · intro l hl
        have hls := Option.some.inj hl
        subst hls
        exact ⟨hg, rfl, hne⟩

/-- Witness for C4: a singleton row set inside a window that survives
clipping. -/
theorem metricWindowRows_spec_witness :
    metricWindowRows 0 100 50 ((2 : ℚ), (5 : ℚ)) [((3 : ℚ), (7 : ℚ))]
        = some [(3, 7)]
      ∧ (max (0 : ℚ) 2 < min 5 (min 100 50)
          ∧ [((3 : ℚ), (7 : ℚ))] = [((3 : ℚ), (7 : ℚ))].filter
              (fun p => decide (max (0 : ℚ) 2 ≤ p.1)
                && decide (p.1 < min 5 (min 100 50)))
          ∧ [((3 : ℚ), (7 : ℚ))] ≠ []) :=
  ⟨by decide,
    (metricWindowRows_spec 0 100 50 (2, 5) [(3, 7)]).2 [(3, 7)] (by decide)⟩

/-! ### Claim C5 -/

theorem colVal_isSome_iff (s : List (ℚ × ℚ)) (t : ℚ) :
    (colVal s t).isSome ↔ ∃ p ∈ s, p.1 = t := by
  rw [colVal]
  cases hf : s.find? (fun p => decide (p.1 = t)) with
  | none =>
    simp only [Option.map_none', Option.isSome_none, Bool.false_eq_true, false_iff]
    rintro ⟨p, hp, hpt⟩
    have := List.find?_eq_none.mp hf p hp
    simp [hpt] at this
  | some q =>
    simp only [Option.map_some', Option.isSome_some, true_iff]
    have h1 := List.find?_some hf
    have h2 := List.mem_of_find?_eq_some hf
    exact ⟨q, h2, by simpa using h1⟩

theorem mem_groupTimes_iff (ps cap : ℚ) (subs : List (List (ℚ × ℚ)))
    (sec : ℤ) (t : ℚ) :
    t ∈ groupTimes ps cap subs sec ↔
      (∃ u ∈ subs, ∃ p ∈ u, p.1 = t)
        ∧ ps ≤ t ∧ t ≤ cohortEnd cap subs ∧ roundHalfEven t = sec := by
  rw [groupTimes, List.mem_filter, axisTimes, List.mem_filter, allTimes,
    List.mem_dedup, List.mem_flatten]
  simp only [List.mem_map, Bool.and_eq_true, decide_eq_true_eq, subjTimes]
  constructor
  · rintro ⟨⟨⟨l, ⟨u, hu, rfl⟩, htl⟩, hps, hend⟩, hround⟩
    rcases List.mem_map.mp htl with ⟨p, hp, rfl⟩
    exact ⟨⟨u, hu, p, hp, rfl⟩, hps, hend, hround⟩
  · rintro ⟨⟨u, hu, p, hp, rfl⟩, hps, hend, hround⟩
    exact ⟨⟨⟨u.map Prod.fst, ⟨u, hu, rfl⟩, List.mem_map.mpr ⟨p, hp, rfl⟩⟩, hps, hend⟩,
      hround⟩

/-- Claim C5: cohort aggregation takes each subject's effective
plot-end `min(global_cap, subject_max_time)`, bounds the cohort by the
minimum of those per-subject ends, restricts every subject's samples to
`[plot_start, cohort_effective_end]`, and outer-unions the subjects on
the binned time axis: an integer second appears in the merged frame
exactly when some subject has an in-range sample rounding to it, and a
given subject's cell at that second is present exactly when that
subject itself has such a sample — a second covered by one subject is
never dropped because another subject has no sample there. -/
theorem cohort_aggregation_spec (cap ps : ℚ) (subs : List (List (ℚ × ℚ)))
    (s : List (ℚ × ℚ)) (hs : s ∈ subs) (sec : ℤ) :
    cohortEnd cap subs
        = qmin (subs.map (fun u => min cap (qmax (subjTimes u))))
      ∧ (groupTimes ps cap subs sec ≠ [] ↔
          ∃ u ∈ subs, ∃ p ∈ u, ps ≤ p.1 ∧ p.1 ≤ cohortEnd cap subs
            ∧ roundHalfEven p.1 = sec)
      ∧ ((aggCell ps cap subs s sec).isSome ↔
          ∃ p ∈ s, ps ≤ p.1 ∧ p.1 ≤ cohortEnd cap subs
            ∧ roundHalfEven p.1 = sec) := by
  refine ⟨rfl, ?_, ?_⟩
  · constructor
    · intro h
      rcases List.exists_mem_of_ne_nil _ h with ⟨t, ht⟩
      rcases (mem_groupTimes_iff ps cap subs sec t).mp ht with
        ⟨⟨u, hu, p, hp, rfl⟩, hps, hend, hround⟩
      exact ⟨u, hu, p, hp, hps, hend, hround⟩
    · rintro ⟨u, hu, p, hp, hps, hend, hround⟩
      intro hnil
      have hmem : p.1 ∈ groupTimes ps cap subs sec :=
        (mem_groupTimes_iff ps cap subs sec p.1).mpr
          ⟨⟨u, hu, p, hp, rfl⟩, hps, hend, hround⟩
      rw [hnil] at hmem
      simp at hmem
  · simp only [aggCell]
    by_cases hv : (groupTimes ps cap subs sec).filterMap (colVal s) = []
    · rw [if_pos hv]
      simp only [Option.isSome_none, Bool.false_eq_true, false_iff]
      rintro ⟨p, hp, hps, hend, hround⟩
      have hmem : p.1 ∈ groupTimes ps cap subs sec :=
        (mem_groupTimes_iff ps cap subs sec p.1).mpr
          ⟨⟨s, hs, p, hp, rfl⟩, hps, hend, hround⟩
      have hcol : (colVal s p.1).isSome :=
        (colVal_isSome_iff s p.1).mpr ⟨p, hp, rfl⟩
      have hnone := List.filterMap_eq_nil_iff.mp hv p.1 hmem
      rw [hnone] at hcol
      simp at hcol
    · rw [if_neg hv]
      simp only [Option.isSome_some, true_iff]
      have hex : ∃ t ∈ groupTimes ps cap subs sec, colVal s t ≠ none := by
        by_contra hcontra
        push_neg at hcontra
        exact hv (List.filterMap_eq_nil_iff.mpr hcontra)
      rcases hex with ⟨t, htg, hcv⟩
      have hcs : (colVal s t).isSome := Option.ne_none_iff_isSome.mp hcv
      rcases (colVal_isSome_iff s t).mp hcs with ⟨p, hp, hpt⟩
      rcases (mem_groupTimes_iff ps cap subs sec t).mp htg with
        ⟨_, hps, hend, hround⟩
      exact ⟨p, hp, by rw [hpt]; exact hps, by rw [hpt]; exact hend,
        by rw [hpt]; exact hround⟩

/-- Witness for C5: subject A `[(0,1),(100,2)]` and subject B
`[(0,5),(57,7),(80,1)]` with cap 150 have effective ends 100 and 80,
so the cohort end is 80; second 57 is covered only by B, so the row
exists with B's cell present and A's cell absent. -/
theorem cohort_aggregation_spec_witness :
    ([((0 : ℚ), (5 : ℚ)), (57, 7), (80, 1)]
        ∈ [[((0 : ℚ), (1 : ℚ)), (100, 2)], [((0 : ℚ), (5 : ℚ)), (57, 7), (80, 1)]])
      ∧ cohortEnd 150 [[((0 : ℚ), (1 : ℚ)), (100, 2)],
          [((0 : ℚ), (5 : ℚ)), (57, 7), (80, 1)]] = 80
      ∧ groupTimes 0 150 [[((0 : ℚ), (1 : ℚ)), (100, 2)],
          [((0 : ℚ), (5 : ℚ)), (57, 7), (80, 1)]] 57 ≠ []
      ∧ (aggCell 0 150 [[((0 : ℚ), (1 : ℚ)), (100, 2)],
          [((0 : ℚ), (5 : ℚ)), (57, 7), (80, 1)]]
          [((0 : ℚ), (5 : ℚ)), (57, 7), (80, 1)] 57).isSome
      ∧ aggCell 0 150 [[((0 : ℚ), (1 : ℚ)), (100, 2)],
          [((0 : ℚ), (5 : ℚ)), (57, 7), (80, 1)]]
          [((0 : ℚ), (1 : ℚ)), (100, 2)] 57 = none := by
  have hend : cohortEnd 150 [[((0 : ℚ), (1 : ℚ)), (100, 2)],
      [((0 : ℚ), (5 : ℚ)), (57, 7), (80, 1)]] = 80 := by decide
  have hB := cohort_aggregation_spec 150 0
    [[((0 : ℚ), (1 : ℚ)), (100, 2)], [((0 : ℚ), (5 : ℚ)), (57, 7), (80, 1)]]
    [((0 : ℚ), (5 : ℚ)), (57, 7), (80, 1)] (by decide) 57
  have hA := cohort_aggregation_spec 150 0
    [[((0 : ℚ), (1 : ℚ)), (100, 2)], [((0 : ℚ), (5 : ℚ)), (57, 7), (80, 1)]]
    [((0 : ℚ), (1 : ℚ)), (100, 2)] (by decide) 57
  have hcov : ((57 : ℚ), (7 : ℚ)) ∈ [((0 : ℚ), (5 : ℚ)), (57, 7), (80, 1)] := by decide
  have h57 : roundHalfEven ((57 : ℚ), (7 : ℚ)).1 = 57 := by norm_num [roundHalfEven]
  have hle : ((57 : ℚ), (7 : ℚ)).1 ≤ cohortEnd 150
      [[((0 : ℚ), (1 : ℚ)), (100, 2)], [((0 : ℚ), (5 : ℚ)), (57, 7), (80, 1)]] := by
    rw [hend]
    norm_num
  refine ⟨by decide, hend, ?_, ?_, ?_⟩
  · exact hB.2.1.mpr ⟨[((0 : ℚ), (5 : ℚ)), (57, 7), (80, 1)], by decide,
      ((57 : ℚ), (7 : ℚ)), hcov, by norm_num, hle, h57⟩
  · exact hB.2.2.mpr ⟨((57 : ℚ), (7 : ℚ)), hcov, by norm_num, hle, h57⟩
  · apply Option.not_isSome_iff_eq_none.mp
    intro hsome
    rcases hA.2.2.mp hsome with ⟨p, hp, hps, hple, hpr⟩
    rw [hend] at hple
    rcases List.mem_cons.mp hp with hp0 | hp1
    · rw [hp0] at hpr
      norm_num [roundHalfEven] at hpr
    · rcases List.mem_cons.mp hp1 with hp2 | hp3
      · rw [hp2] at hple
        norm_num at hple
      · simp at hp3
